import Mathlib

/-!
# fileserver: pathspec parsing and the root-redirect handler

A shallow embedding of `fileserver.go` (package `fileserver`): the functions
`parsePathspec` and `New` together with the parts of the Go standard library
they call (`strings.Split`, `filepath.Split`, `filepath.Abs` on Unix,
`url.URL.String`, the dispatch of `http.ServeMux` and `http.Redirect`).

Go strings are modelled as lists of characters.  Every character the code
inspects (space, colon, slash, dot, question mark) is ASCII, so splitting a list
of characters and splitting the underlying bytes agree.
-/

set_option autoImplicit false

namespace Fileserver

/-- Go strings, as lists of characters. -/
abbrev Str := List Char

/-! ## `strings` -/

namespace strings

/-- Go `strings.Split(s, sep)` for a one-character separator: the pieces of `s`
between consecutive occurrences of `sep`; a string without `sep` (the empty one
included) gives the one-element list holding the string itself. -/
def Split : Str → Char → List Str
  | [], _ => [[]]
  | c :: cs, sep =>
    if c = sep then [] :: Split cs sep
    else
      match Split cs sep with
      | [] => [[c]]
      | t :: ts => (c :: t) :: ts

end strings

/-! ## `path/filepath` (Unix) -/

namespace filepath

/-- Go `filepath.Split` on Unix: the path is cut right after its final slash;
the result is the directory part (with the slash) and the file part.  Without a
slash the directory is empty and the file is the whole path. -/
def Split : Str → Str × Str
  | [] => ([], [])
  | c :: cs =>
    let r := Split cs
    if c = '/' then
      (if '/' ∈ cs then (c :: r.1, r.2) else ([c], cs))
    else
      (if '/' ∈ cs then (c :: r.1, r.2) else ([], c :: cs))

/-- Go `filepath.IsAbs` on Unix: the path starts with a slash. -/
def IsAbs : Str → Bool
  | '/' :: _ => true
  | _ => false

/-- The backtracking loop of `filepath.Clean` for a `..` element, started after
the first `out.w--`: while `w > dotdot` and `out[w]` is not a slash, decrement
`w`.  The argument is the current `w`, the result the final one. -/
def backtrack (out : Str) (dotdot : Nat) : Nat → Nat
  | 0 => 0
  | w + 1 =>
    if dotdot < w + 1 ∧ out.getD (w + 1) '/' ≠ '/' then backtrack out dotdot w
    else w + 1

/-- The main loop of Go `filepath.Clean`.  `path` is the unread input
(`path[r:]`), `out` the bytes written so far (`buf[:w]`), `dotdot` the index
where `..` must stop.  Every iteration reads at least one byte, so the fuel is
the number of iterations allowed. -/
def cleanLoop (rooted : Bool) : Nat → Str → Str → Nat → Str
  | 0, _, out, _ => out
  | fuel + 1, path, out, dotdot =>
    match path with
    | [] => out
    | c :: rest =>
      if c = '/' then
        -- empty path element
        cleanLoop rooted fuel rest out dotdot
      else if c = '.' ∧ (rest = [] ∨ rest.head? = some '/') then
        -- . element
        cleanLoop rooted fuel rest out dotdot
      else if c = '.' ∧ rest.head? = some '.' ∧
          (rest.tail = [] ∨ rest.tail.head? = some '/') then
        -- .. element: remove to last separator
        if dotdot < out.length then
          cleanLoop rooted fuel rest.tail
            (out.take (backtrack out dotdot (out.length - 1))) dotdot
        else if !rooted then
          let out1 := (if 0 < out.length then out ++ ['/'] else out) ++ ['.', '.']
          cleanLoop rooted fuel rest.tail out1 out1.length
        else
          cleanLoop rooted fuel rest.tail out dotdot
      else
        -- real path element: add slash if needed, copy element
        let out1 :=
          if (rooted && out.length != 1) || (!rooted && out.length != 0) then out ++ ['/']
          else out
        cleanLoop rooted fuel ((c :: rest).dropWhile (fun b => b != '/'))
          (out1 ++ (c :: rest).takeWhile (fun b => b != '/')) dotdot

/-- Go `filepath.Clean` on Unix (no volume name, `FromSlash` is the identity). -/
def Clean (path : Str) : Str :=
  match path with
  | [] => ['.']
  | c :: _ =>
    let rooted := c = '/'
    let out :=
      if rooted then cleanLoop true path.length path.tail ['/'] 1
      else cleanLoop false path.length path [] 0
    if out.length = 0 then ['.'] else out

/-- Go `filepath.Join` for two elements on Unix: empty elements are ignored,
the rest are joined with a slash and cleaned. -/
def Join (a b : Str) : Str :=
  if a ≠ [] then Clean (a ++ '/' :: b)
  else if b ≠ [] then Clean b
  else []

end filepath

/-- Errors returned by the package. -/
inductive Error where
  /-- `errors.New("invalid filespec: too many delimeters")` -/
  | tooManyDelimeters
  /-- The error of `os.Getwd`, passed on by `filepath.Abs`. -/
  | getwd
  /-- The error of `zip.OpenReader`, wrapped in "Unable to open zip archive". -/
  | zipOpen
  deriving DecidableEq, Repr

deriving instance DecidableEq for Except

namespace filepath

/-- Go `filepath.Abs` on Unix.  `wd` is what `os.Getwd` returns: `none` when it
fails. -/
def Abs (wd : Option Str) (path : Str) : Except Error Str :=
  if IsAbs path then .ok (Clean path)
  else
    match wd with
    | none => .error .getwd
    | some d => .ok (Join d path)

end filepath

/-! ## The alias map -/

/-- Go `map[string]string`: a list of entries with pairwise different keys. -/
abbrev AliasMap := List (Str × Str)

namespace AliasMap

/-- The assignment `m[k] = v`: an entry under `k` is replaced. -/
def set (m : AliasMap) (k v : Str) : AliasMap :=
  (k, v) :: m.filter (fun e => e.1 ≠ k)

/-- The lookup `m[k]`. -/
def get? (m : AliasMap) (k : Str) : Option Str :=
  (m.find? (fun e => e.1 = k)).map Prod.snd

/-- The keys of the map. -/
def keys (m : AliasMap) : List Str := m.map Prod.fst

end AliasMap

/-! ## `parsePathspec` -/

/-- The body of the loop of `parsePathspec` for one token `path`: the alias and
the absolute path that are then stored as `aliasmap[alias] = abs`. -/
def parseToken (wd : Option Str) (path : Str) : Except Error (Str × Str) :=
  let spath := strings.Split path ':'
  let alias? : Option Str :=
    match spath.length with
    | 1 => some (filepath.Split (spath.headD [])).2
    | 2 => some (spath.getD 1 [])
    | _ => none
  match alias? with
  | none => .error .tooManyDelimeters
  | some al =>
    match filepath.Abs wd (spath.headD []) with
    | .error e => .error e
    | .ok abs => .ok (al, abs)

/-- The loop `for _, path := range paths` of `parsePathspec`, started with the
map built so far. -/
def parseLoop (wd : Option Str) : List Str → AliasMap → Except Error AliasMap
  | [], m => .ok m
  | path :: paths, m =>
    match parseToken wd path with
    | .error e => .error e
    | .ok (al, abs) => parseLoop wd paths (m.set al abs)

/-- The function `parsePathspec`. -/
def parsePathspec (wd : Option Str) (pathspec : Str) : Except Error AliasMap :=
  parseLoop wd (strings.Split pathspec ' ') []

/-! ## `net/url`: rendering a request URL -/

namespace url

/-- The modes of Go `net/url` escaping that `URL.String` uses for the fields
modelled here. -/
inductive encoding where
  | encodePath
  | encodeHost
  deriving DecidableEq, Repr

/-- Go `shouldEscape(c, mode)` for an ASCII byte `c`, in the two modes above
(`Char.ofNat 39` is the apostrophe, `Char.ofNat 34` the double quote). -/
def shouldEscape (c : Char) (mode : encoding) : Bool :=
  if c.isAlphanum then false
  else if mode = .encodeHost ∧
      c ∈ ['!', '$', '&', Char.ofNat 39, '(', ')', '*', '+', ',', ';', '=', ':', '[', ']', '<', '>',
        Char.ofNat 34]
    then false
  else if c ∈ ['-', '_', '.', '~'] then false
  else if c ∈ ['$', '&', '+', ',', '/', ':', ';', '=', '?', '@'] then
    (match mode with
     | .encodePath => c = '?'
     | .encodeHost => true)
  else true

/-- The digit `"0123456789ABCDEF"[n]`. -/
def upperhex (n : Nat) : Char := ("0123456789ABCDEF".toList).getD n '0'

/-- The three bytes `%XX` written by `escape` for the byte `b`. -/
def hexByte (b : Nat) : Str := ['%', upperhex (b / 16), upperhex (b % 16)]

/-- What Go `escape` writes for one character of the string: an ASCII byte is
kept or hex-escaped as `shouldEscape` says, and each byte of the UTF-8 encoding
of a non-ASCII character is hex-escaped. -/
def escapeChar (c : Char) (mode : encoding) : Str :=
  if c.toNat < 128 then
    (if shouldEscape c mode then hexByte c.toNat else [c])
  else
    (String.utf8EncodeChar c).flatMap (fun b => hexByte b.toNat)

/-- Go `escape(s, mode)`. -/
def escape (s : Str) (mode : encoding) : Str :=
  s.flatMap (fun c => escapeChar c mode)

/-- Go `url.URL`, with the fields that the HTTP server fills in for a request
received in origin form (`Path`, `ForceQuery`, `RawQuery`) or in absolute form
(`Scheme` and `Host` too).  `RawPath` is taken to be empty, so that the escaped
path is the default encoding of `Path`. -/
structure URL where
  Scheme : Str := []
  Host : Str := []
  Path : Str := []
  ForceQuery : Bool := false
  RawQuery : Str := []
  deriving DecidableEq, Repr

/-- Go `(*URL).EscapedPath` with an empty `RawPath`. -/
def URL.EscapedPath (u : URL) : Str :=
  if u.Path = ['*'] then ['*'] else escape u.Path .encodePath

/-- Go `(*URL).String`. -/
def URL.String (u : URL) : Str :=
  let buf0 : Str := if u.Scheme ≠ [] then u.Scheme ++ [':'] else []
  let buf1 : Str :=
    if u.Scheme ≠ [] ∨ u.Host ≠ [] then
      buf0 ++ (if u.Host ≠ [] ∨ u.Path ≠ [] then ['/', '/'] else [])
        ++ (if u.Host ≠ [] then escape u.Host .encodeHost else [])
    else buf0
  let path := u.EscapedPath
  let buf2 : Str :=
    if path ≠ [] ∧ path.head? ≠ some '/' ∧ u.Host ≠ [] then buf1 ++ ['/'] else buf1
  let buf3 : Str :=
    if buf2.length = 0 ∧ ':' ∈ path.takeWhile (fun b => b != '/') then buf2 ++ ['.', '/']
    else buf2
  let buf4 : Str := buf3 ++ path
  if u.ForceQuery ∨ u.RawQuery ≠ [] then buf4 ++ '?' :: u.RawQuery else buf4

end url

/-! ## Requests and responses -/

/-- An HTTP request, as far as the handler looks at it: the method, the request
target as it was sent (`RequestURI`) and the parsed URL. -/
structure Request where
  Method : Str
  RequestURI : Str
  URL : url.URL
  deriving DecidableEq, Repr

/-- An opened zip archive (`*zip.ReadCloser`): the names of its entries. -/
structure ZipReadCloser where
  files : List Str
  deriving DecidableEq, Repr

/-- The virtual file system `fs` that the static file responder serves from. -/
inductive FileSystem where
  /-- `zipfs.New(rcZip, "zipfs")` -/
  | zipfs (rcZip : ZipReadCloser)
  /-- `pickfs.New(vfs.OS(""), aliasmap)` -/
  | pickfs (aliasmap : AliasMap)
  deriving DecidableEq, Repr

/-- The response to a request. -/
inductive Response where
  /-- The response written by `http.Redirect`: the `Location` header and the
  status code. -/
  | redirect (location : Str) (code : Nat)
  /-- The request was handed to `fileserver.ServeHTTP(w, req)`, where
  `fileserver` is `http.FileServer(httpfs.New(fs))`; the response is the one the
  static file responder writes. -/
  | fileserver (fs : FileSystem) (req : Request)
  /-- The mux answers the request target `*` with status 400. -/
  | badRequest
  /-- The mux finds no pattern for the path: `http.NotFoundHandler`. -/
  | notFound
  deriving DecidableEq, Repr

/-! ## `path` and `net/http` -/

namespace path

/-- Go `path.Clean`: the same loop as `filepath.Clean` on Unix. -/
def Clean (p : Str) : Str := filepath.Clean p

/-- Go `path.Split`: the same cut after the final slash as `filepath.Split` on
Unix. -/
def Split (p : Str) : Str × Str := filepath.Split p

end path

namespace http

/-- The constant `http.StatusFound`. -/
def StatusFound : Nat := 302

/-- The constant `http.StatusMovedPermanently`. -/
def StatusMovedPermanently : Nat := 301

/-- The digit `"0123456789abcdef"[n]`, as `strconv.AppendInt(b, n, 16)` writes
it. -/
def lowerhex (n : Nat) : Char := ("0123456789abcdef".toList).getD n '0'

/-- Go `hexEscapeNonASCII`: every byte from 128 on (the bytes of the UTF-8
encoding of a non-ASCII character) is replaced by `%` and its two hexadecimal
digits; ASCII bytes are kept. -/
def hexEscapeNonASCII (s : Str) : Str :=
  s.flatMap (fun c =>
    if c.toNat < 128 then [c]
    else (String.utf8EncodeChar c).flatMap
      (fun b => ['%', lowerhex (b.toNat / 16), lowerhex (b.toNat % 16)]))

/-- The target that `http.Redirect(w, r, url, code)` puts into the `Location`
header, before `hexEscapeNonASCII`.  `relative` says whether `url.Parse(url)`
succeeded with empty `Scheme` and `Host`; then a target without leading slash is
made absolute with the directory of the request path, and the part before the
first `?` is cleaned with `path.Clean`, a trailing slash being kept. -/
def redirectTarget (relative : Bool) (r : Request) (url : Str) : Str :=
  if relative then
    let oldpath : Str := if r.URL.Path = [] then ['/'] else r.URL.Path
    let url1 : Str :=
      if url = [] ∨ url.head? ≠ some '/' then (path.Split oldpath).1 ++ url else url
    let query : Str := url1.dropWhile (fun b => b != '?')
    let url2 : Str := url1.takeWhile (fun b => b != '?')
    let trailing : Bool := url2.getLast? = some '/'
    let url3 : Str := path.Clean url2
    let url4 : Str := if trailing ∧ url3.getLast? ≠ some '/' then url3 ++ ['/'] else url3
    url4 ++ query
  else url

/-- Go `http.Redirect(w, r, url, code)`.  The URL parser `url.Parse` is not
modelled: `relative url` is its verdict on the target, `true` when the target
parses without error and has empty `Scheme` and `Host`.  What is proved below
holds for every such verdict. -/
def Redirect (relative : Str → Bool) (r : Request) (url : Str) (code : Nat) : Response :=
  .redirect (hexEscapeNonASCII (redirectTarget (relative url) r url)) code

/-- Go `cleanPath` of `net/http`: the canonical form of a request path, with a
leading slash, cleaned by `path.Clean`, a trailing slash being kept. -/
def cleanPath (p : Str) : Str :=
  if p = [] then ['/']
  else
    let p1 : Str := if p.head? ≠ some '/' then '/' :: p else p
    let np : Str := path.Clean p1
    if p1.getLast? = some '/' ∧ np ≠ ['/'] then
      (if p1.length = np.length + 1 ∧ np.isPrefixOf p1 then p1 else np ++ ['/'])
    else np

end http

/-! ## The handler built by `New` -/

/-- The handler that `New` returns: the mux with the one pattern `/`, and the
variables captured by the function registered under it. -/
structure Handler where
  fs : FileSystem
  aliasmap : AliasMap
  debug : Bool
  deriving DecidableEq, Repr

/-- The function passed to `mux.HandleFunc("/", ...)`: the lines logged with
`log.Printf` and the response. -/
def Handler.handleFunc (relative : Str → Bool) (h : Handler) (req : Request) :
    List Str × Response :=
  let logged : List Str :=
    if h.debug then
      ["Request for ".toList ++ [Char.ofNat 34] ++ req.URL.String ++ [Char.ofNat 34]]
    else []
  if req.URL.String = ['/'] ∧ h.aliasmap.length = 1 then
    -- Traverse lonely path
    match h.aliasmap with
    | (filename, _) :: _ =>
      (logged, http.Redirect relative req ('/' :: filename) http.StatusFound)
    | [] => (logged, .fileserver h.fs req)
  else
    (logged, .fileserver h.fs req)

/-- Go `(*ServeMux).handler(host, path)` for the mux of `New`: the only pattern
is `/`, which matches the paths that start with a slash; other paths get the
not-found handler. -/
def Handler.muxHandler (relative : Str → Bool) (h : Handler) (req : Request) :
    List Str × Response :=
  if filepath.IsAbs req.URL.Path then h.handleFunc relative req else ([], .notFound)

/-- Go `(*ServeMux).ServeHTTP` (the mux of Go 1.10 to 1.21) for the mux of
`New`: what the handler returned by `New` does with a request.  The request
target `*` is answered with status 400.  A request other than `CONNECT` whose
path is not in the canonical form `cleanPath` is answered by the mux itself with
a redirect (status 301) to the canonical path, and the registered function is
not run.  With `/` as the only pattern the mux never redirects to add a trailing
slash. -/
def Handler.ServeHTTP (relative : Str → Bool) (h : Handler) (req : Request) :
    List Str × Response :=
  if req.RequestURI = ['*'] then ([], .badRequest)
  else if req.Method = "CONNECT".toList then h.muxHandler relative req
  else
    let p := http.cleanPath req.URL.Path
    if p ≠ req.URL.Path then
      ([], http.Redirect relative req
        (url.URL.String { Path := p, RawQuery := req.URL.RawQuery })
        http.StatusMovedPermanently)
    else h.muxHandler relative req

/-- What the process sees of its surroundings: the result of `os.Getwd` and of
`zip.OpenReader` (`none` when they fail). -/
structure Env where
  getwd : Option Str
  openReader : Str → Option ZipReadCloser

/-- The function `New`. -/
def New (env : Env) (pathspec : Str) (zipOn debug : Bool) : Except Error Handler :=
  if zipOn then
    match env.openReader pathspec with
    | none => .error .zipOpen
    | some rcZip => .ok { fs := .zipfs rcZip, aliasmap := [], debug := debug }
  else
    match parsePathspec env.getwd pathspec with
    | .error e => .error e
    | .ok aliasmap => .ok { fs := .pickfs aliasmap, aliasmap := aliasmap, debug := debug }

/-- The base name (final path component) of a path in the words of the
specification; it is what Go `filepath.Base` computes on Unix: trailing slashes
are stripped, then the part after the last slash is taken; the empty path has
base name `.` and a path of slashes only has base name `/`. -/
def baseName (path : Str) : Str :=
  if path = [] then ['.']
  else
    let stripped := (path.reverse.dropWhile (fun b => b == '/')).reverse
    let last := (filepath.Split stripped).2
    if last = [] then ['/'] else last


/-- A process started in the directory `/srv`, where no zip archive can be
opened. -/
def srvEnv : Env := { getwd := some "/srv".toList, openReader := fun _ => none }

/-- A process started in `/srv`, where the file named `a:b:c d` is a zip archive
holding the one entry `index.html`, and no other file is an archive. -/
def zipEnv : Env :=
  { getwd := some "/srv".toList
    openReader := fun name =>
      if name = "a:b:c d".toList then some { files := ["index.html".toList] } else none }


/-! ## Lemmas on `strings.Split` -/

theorem Split_ne_nil (s : Str) (sep : Char) : strings.Split s sep ≠ [] := by
  induction s with
  | nil => simp [strings.Split]
  | cons c cs ih =>
    unfold strings.Split
    split
    · simp
    · split <;> simp

theorem Split_length (s : Str) (sep : Char) :
    (strings.Split s sep).length = s.count sep + 1 := by
  induction s with
  | nil => simp [strings.Split]
  | cons c cs ih =>
    unfold strings.Split
    by_cases h : c = sep
    · subst h
      simp [ih]
    · have hne : (c == sep) = false := by simpa using h
      rw [if_neg h, List.count_cons, hne]
      cases hs : strings.Split cs sep with
      | nil => exact absurd hs (Split_ne_nil cs sep)
      | cons t ts =>
        rw [hs] at ih
        simpa using ih

theorem Split_of_not_mem (s : Str) (sep : Char) (h : sep ∉ s) :
    strings.Split s sep = [s] := by
  induction s with
  | nil => simp [strings.Split]
  | cons c cs ih =>
    have hc : c ≠ sep := fun e => h (by simp [e])
    have hcs : sep ∉ cs := fun e => h (by simp [e])
    unfold strings.Split
    rw [if_neg hc, ih hcs]

theorem Split_append_sep (p a : Str) (sep : Char) (h : sep ∉ p) :
    strings.Split (p ++ sep :: a) sep = p :: strings.Split a sep := by
  induction p with
  | nil => simp [strings.Split]
  | cons c cs ih =>
    have hc : c ≠ sep := fun e => h (by simp [e])
    have hcs : sep ∉ cs := fun e => h (by simp [e])
    show strings.Split (c :: (cs ++ sep :: a)) sep = _
    rw [strings.Split, if_neg hc, ih hcs]


/-! ## Lemmas on `parseToken` and the parsing loop -/

theorem parseToken_of_two_le (wd : Option Str) (t : Str) (h : 2 ≤ t.count ':') :
    parseToken wd t = .error .tooManyDelimeters := by
  obtain ⟨n, hn⟩ : ∃ n, t.count ':' = n + 2 := ⟨t.count ':' - 2, by omega⟩
  simp [parseToken, Split_length, hn]

theorem parseToken_of_lt_two (wd : Option Str) (t abs : Str) (h : t.count ':' < 2)
    (habs : filepath.Abs wd ((strings.Split t ':').headD []) = .ok abs) :
    ∃ al, parseToken wd t = .ok (al, abs) := by
  have hc : t.count ':' = 0 ∨ t.count ':' = 1 := by omega
  rw [List.headD_eq_head?_getD] at habs
  rcases hc with hc | hc <;> simp [parseToken, Split_length, hc, habs]

theorem parseToken_error_cases (wd : Option Str) (t : Str) (e : Error)
    (h : parseToken wd t = .error e) :
    2 ≤ t.count ':' ∨ filepath.Abs wd ((strings.Split t ':').headD []) = .error e := by
  by_cases hc : 2 ≤ t.count ':'
  · exact Or.inl hc
  · right
    cases habs : filepath.Abs wd ((strings.Split t ':').headD []) with
    | error e1 =>
      have h2 : t.count ':' = 0 ∨ t.count ':' = 1 := by omega
      rw [List.headD_eq_head?_getD] at habs
      rcases h2 with h2 | h2 <;> simp [parseToken, Split_length, h2, habs] at h <;> simp [h]
    | ok abs =>
      obtain ⟨al, hal⟩ := parseToken_of_lt_two wd t abs (by omega) habs
      rw [hal] at h
      cases h

theorem parseLoop_error_iff (wd : Option Str) (ts : List Str) (m : AliasMap) :
    (∃ e, parseLoop wd ts m = .error e) ↔ ∃ t ∈ ts, ∃ e, parseToken wd t = .error e := by
  induction ts generalizing m with
  | nil => simp [parseLoop]
  | cons t ts ih =>
    cases ht : parseToken wd t with
    | error e => simp [parseLoop, ht]
    | ok r =>
      obtain ⟨al, abs⟩ := r
      simp [parseLoop, ht, ih]

theorem parseLoop_append_one (wd : Option Str) (ts : List Str) (t : Str) (m : AliasMap) :
    parseLoop wd (ts ++ [t]) m =
      match parseLoop wd ts m with
      | .error e => .error e
      | .ok m1 =>
        match parseToken wd t with
        | .error e => .error e
        | .ok (al, abs) => .ok (m1.set al abs) := by
  induction ts generalizing m with
  | nil =>
    cases ht : parseToken wd t with
    | error e => simp [parseLoop, ht]
    | ok r =>
      obtain ⟨al, abs⟩ := r
      simp [parseLoop, ht]
  | cons t0 ts ih =>
    cases ht0 : parseToken wd t0 with
    | error e => simp [parseLoop, ht0]
    | ok r =>
      obtain ⟨al, abs⟩ := r
      simp [parseLoop, ht0, ih]

theorem Abs_some_ok (d path : Str) : ∃ abs, filepath.Abs (some d) path = .ok abs := by
  unfold filepath.Abs
  split
  · exact ⟨_, rfl⟩
  · exact ⟨_, rfl⟩

/-! ## Lemmas on the alias map -/

theorem AliasMap.length_set_le (m : AliasMap) (k v : Str) :
    (m.set k v).length ≤ m.length + 1 := by
  simp only [AliasMap.set, List.length_cons]
  exact Nat.succ_le_succ (List.length_filter_le _ _)

theorem AliasMap.length_set_pos (m : AliasMap) (k v : Str) : 1 ≤ (m.set k v).length := by
  simp [AliasMap.set]

theorem AliasMap.find?_filter_ne (m : AliasMap) (k k1 : Str) (h : k1 ≠ k) :
    (m.filter (fun e => e.1 ≠ k)).find? (fun e => e.1 = k1) = m.find? (fun e => e.1 = k1) := by
  induction m with
  | nil => rfl
  | cons e m ih =>
    by_cases he : e.1 = k
    · have hk1 : ¬ e.1 = k1 := fun h1 => h (h1.symm.trans he)
      rw [List.filter_cons_of_neg (by simp [he]), ih,
        List.find?_cons_of_neg _ (by simp [hk1])]
    · rw [List.filter_cons_of_pos (by simp [he])]
      by_cases hk1 : e.1 = k1
      · rw [List.find?_cons_of_pos _ (by simp [hk1]), List.find?_cons_of_pos _ (by simp [hk1])]
      · rw [List.find?_cons_of_neg _ (by simp [hk1]), List.find?_cons_of_neg _ (by simp [hk1]),
          ih]

theorem AliasMap.get?_set (m : AliasMap) (k v k1 : Str) :
    (m.set k v).get? k1 = if k1 = k then some v else m.get? k1 := by
  by_cases h : k1 = k
  · subst h
    simp [AliasMap.get?, AliasMap.set]
  · have h1 : ¬ k = k1 := fun e => h e.symm
    simp only [AliasMap.get?, AliasMap.set, if_neg h]
    rw [List.find?_cons_of_neg _ (by simpa using h1), AliasMap.find?_filter_ne m k k1 h]

theorem AliasMap.mem_keys_set (m : AliasMap) (k v k1 : Str) :
    k1 ∈ (m.set k v).keys ↔ k1 = k ∨ k1 ∈ m.keys := by
  simp only [AliasMap.keys, AliasMap.set, List.map_cons, List.mem_cons, List.mem_map,
    List.mem_filter]
  constructor
  · rintro (h | ⟨e, ⟨he, _⟩, rfl⟩)
    · exact Or.inl h
    · exact Or.inr ⟨e, he, rfl⟩
  · rintro (h | ⟨e, he, rfl⟩)
    · exact Or.inl h
    · by_cases hk : e.1 = k
      · exact Or.inl hk
      · exact Or.inr ⟨e, ⟨he, by simpa using hk⟩, rfl⟩

theorem AliasMap.nodup_keys_set (m : AliasMap) (k v : Str) (h : m.keys.Nodup) :
    (m.set k v).keys.Nodup := by
  simp only [AliasMap.keys, AliasMap.set, List.map_cons, List.nodup_cons, List.mem_map,
    List.mem_filter]
  refine ⟨?_, ?_⟩
  · rintro ⟨e, ⟨_, he⟩, rfl⟩
    simp at he
  · exact (List.filter_sublist m).map Prod.fst |>.nodup h

/-- The entries of a parsed map: sizes, and keys pairwise different. -/
theorem parseLoop_size (wd : Option Str) (ts : List Str) (m0 m : AliasMap)
    (h : parseLoop wd ts m0 = .ok m) :
    m.length ≤ m0.length + ts.length ∧ (ts ≠ [] → 1 ≤ m.length) ∧
      (m0.keys.Nodup → m.keys.Nodup) := by
  induction ts using List.reverseRecOn generalizing m with
  | nil =>
    simp only [parseLoop, Except.ok.injEq] at h
    subst h
    simp
  | append_singleton ts t ih =>
    rw [parseLoop_append_one] at h
    cases h1 : parseLoop wd ts m0 with
    | error e => simp [h1] at h
    | ok m1 =>
      cases ht : parseToken wd t with
      | error e => simp [h1, ht] at h
      | ok r =>
        obtain ⟨al, abs⟩ := r
        simp only [h1, ht, Except.ok.injEq] at h
        subst h
        obtain ⟨ihl, _, ihn⟩ := ih m1 h1
        refine ⟨?_, fun _ => AliasMap.length_set_pos m1 al abs,
          fun hn => AliasMap.nodup_keys_set m1 al abs (ihn hn)⟩
        have := AliasMap.length_set_le m1 al abs
        simp only [List.length_append, List.length_singleton]
        omega


theorem append_singleton_eq_cases {α : Type} (ts pre post : List α) (t t0 : α)
    (h : ts ++ [t] = pre ++ t0 :: post) :
    (post = [] ∧ ts = pre ∧ t = t0) ∨ ∃ post1, post = post1 ++ [t] ∧ ts = pre ++ t0 :: post1 := by
  rcases List.eq_nil_or_concat post with hp | ⟨post1, x, hp⟩
  · subst hp
    obtain ⟨h1, h2⟩ := List.append_inj' h rfl
    exact Or.inl ⟨rfl, h1, by simpa using h2⟩
  · rw [List.concat_eq_append] at hp
    subst hp
    have h3 : ts ++ [t] = (pre ++ t0 :: post1) ++ [x] := by simpa using h
    obtain ⟨h1, h2⟩ := List.append_inj' h3 rfl
    have hx : t = x := by simpa using h2
    subst hx
    exact Or.inr ⟨post1, rfl, h1⟩

theorem parseLoop_ok_iff (wd : Option Str) (ts : List Str) (m0 : AliasMap) :
    (∃ m, parseLoop wd ts m0 = .ok m) ↔ ∀ t ∈ ts, ∃ r, parseToken wd t = .ok r := by
  induction ts generalizing m0 with
  | nil => simp [parseLoop]
  | cons t ts ih =>
    cases ht : parseToken wd t with
    | error e => simp [parseLoop, ht]
    | ok r =>
      obtain ⟨al, abs⟩ := r
      simp [parseLoop, ht, ih]

theorem parseToken_ok_abs (wd : Option Str) (t k v : Str) (h : parseToken wd t = .ok (k, v)) :
    filepath.Abs wd ((strings.Split t ':').headD []) = .ok v := by
  cases habs : filepath.Abs wd ((strings.Split t ':').headD []) with
  | error e =>
    by_cases hc : 2 ≤ t.count ':'
    · rw [parseToken_of_two_le wd t hc] at h
      cases h
    · have h2 : t.count ':' = 0 ∨ t.count ':' = 1 := by omega
      rw [List.headD_eq_head?_getD] at habs
      rcases h2 with h2 | h2 <;> simp [parseToken, Split_length, h2, habs] at h
  | ok abs =>
    by_cases hc : 2 ≤ t.count ':'
    · rw [parseToken_of_two_le wd t hc] at h
      cases h
    · obtain ⟨al, hal⟩ := parseToken_of_lt_two wd t abs (by omega) habs
      rw [hal] at h
      simp only [Except.ok.injEq, Prod.mk.injEq] at h
      rw [h.2]

/-- The map built by the loop from the empty map: its keys are the aliases of
the tokens, and the value under a key comes from the last token with that
alias. -/
theorem parseLoop_last (wd : Option Str) (ts : List Str) (m : AliasMap)
    (h : parseLoop wd ts [] = .ok m) :
    (∀ k, k ∈ m.keys ↔ ∃ t ∈ ts, ∃ v, parseToken wd t = .ok (k, v)) ∧
    (∀ k v, m.get? k = some v ↔
      ∃ pre t post, ts = pre ++ t :: post ∧ parseToken wd t = .ok (k, v) ∧
        ∀ t1 ∈ post, ∀ v1, parseToken wd t1 ≠ .ok (k, v1)) := by
  induction ts using List.reverseRecOn generalizing m with
  | nil =>
    simp only [parseLoop, Except.ok.injEq] at h
    subst h
    simp [AliasMap.keys, AliasMap.get?]
  | append_singleton ts t ih =>
    rw [parseLoop_append_one] at h
    cases h1 : parseLoop wd ts [] with
    | error e => simp [h1] at h
    | ok m1 =>
      cases ht : parseToken wd t with
      | error e => simp [h1, ht] at h
      | ok r =>
        obtain ⟨al, abs⟩ := r
        simp only [h1, ht, Except.ok.injEq] at h
        subst h
        obtain ⟨ihk, ihv⟩ := ih m1 h1
        refine ⟨fun k => ?_, fun k v => ?_⟩
        · rw [AliasMap.mem_keys_set, ihk]
          constructor
          · rintro (hk | ⟨t1, ht1, v, hv⟩)
            · exact ⟨t, by simp, abs, by rw [ht, hk]⟩
            · exact ⟨t1, by simp [ht1], v, hv⟩
          · rintro ⟨t1, ht1, v, hv⟩
            rcases List.mem_append.1 ht1 with hm | hm
            · exact Or.inr ⟨t1, hm, v, hv⟩
            · have : t1 = t := by simpa using hm
              subst this
              rw [ht] at hv
              simp only [Except.ok.injEq, Prod.mk.injEq] at hv
              exact Or.inl hv.1.symm
        · rw [AliasMap.get?_set]
          by_cases hk : k = al
          · subst hk
            rw [if_pos rfl]
            constructor
            · intro hv
              have hv1 : abs = v := by simpa using hv
              subst hv1
              exact ⟨ts, t, [], rfl, ht, by simp⟩
            · rintro ⟨pre, t0, post, hdec, ht0, hpost⟩
              rcases append_singleton_eq_cases ts pre post t t0 hdec with
                ⟨_, _, htt⟩ | ⟨post1, hp, _⟩
              · subst htt
                rw [ht] at ht0
                simp only [Except.ok.injEq, Prod.mk.injEq] at ht0
                rw [ht0.2]
              · exact absurd ht (hpost t (by simp [hp]) abs)
          · rw [if_neg hk, ihv]
            constructor
            · rintro ⟨pre, t0, post, hdec, ht0, hpost⟩
              refine ⟨pre, t0, post ++ [t], by simp [hdec], ht0, ?_⟩
              intro t1 ht1 v1 hv1
              rcases List.mem_append.1 ht1 with hm | hm
              · exact hpost t1 hm v1 hv1
              · have : t1 = t := by simpa using hm
                subst this
                rw [ht] at hv1
                simp only [Except.ok.injEq, Prod.mk.injEq] at hv1
                exact hk hv1.1.symm
            · rintro ⟨pre, t0, post, hdec, ht0, hpost⟩
              rcases append_singleton_eq_cases ts pre post t t0 hdec with
                ⟨_, _, htt⟩ | ⟨post1, hp, hts⟩
              · subst htt
                rw [ht] at ht0
                simp only [Except.ok.injEq, Prod.mk.injEq] at ht0
                exact absurd ht0.1.symm hk
              · exact ⟨pre, t0, post1, hts, ht0, fun t1 hm => hpost t1 (by simp [hp, hm])⟩


/-! ## Lemmas on `URL.String` -/

theorem utf8EncodeChar_ne_nil (c : Char) : String.utf8EncodeChar c ≠ [] := by
  unfold String.utf8EncodeChar
  simp only
  split_ifs <;> simp

theorem escapeChar_cases (c : Char) (mode : url.encoding) :
    url.escapeChar c mode = [c] ∨ ∃ rest, url.escapeChar c mode = '%' :: rest ∧ 2 ≤ rest.length := by
  unfold url.escapeChar
  split_ifs with h1 h2
  · exact Or.inr ⟨_, rfl, by simp⟩
  · exact Or.inl rfl
  · right
    cases hb : String.utf8EncodeChar c with
    | nil => exact absurd hb (utf8EncodeChar_ne_nil c)
    | cons b bs =>
      refine ⟨[url.upperhex (b.toNat / 16), url.upperhex (b.toNat % 16)] ++
        bs.flatMap (fun b => url.hexByte b.toNat), ?_, by simp⟩
      simp [List.flatMap, url.hexByte]

theorem escape_eq_nil (s : Str) (mode : url.encoding) (h : url.escape s mode = []) : s = [] := by
  cases s with
  | nil => rfl
  | cons c cs =>
    exfalso
    have hc : url.escape (c :: cs) mode = url.escapeChar c mode ++ url.escape cs mode := by
      simp [url.escape, List.flatMap]
    rw [hc] at h
    rcases escapeChar_cases c mode with h1 | ⟨rest, h1, _⟩ <;> rw [h1] at h <;> simp at h

theorem escape_eq_slash (s : Str) (mode : url.encoding) (h : url.escape s mode = ['/']) :
    s = ['/'] := by
  cases s with
  | nil => simp [url.escape] at h
  | cons c cs =>
    have hc : url.escape (c :: cs) mode = url.escapeChar c mode ++ url.escape cs mode := by
      simp [url.escape, List.flatMap]
    rw [hc] at h
    rcases escapeChar_cases c mode with h1 | ⟨rest, h1, _⟩
    · rw [h1] at h
      simp only [List.singleton_append, List.cons.injEq] at h
      rw [h.1, escape_eq_nil cs mode h.2]
    · rw [h1] at h
      simp only [List.cons_append, List.cons.injEq] at h
      exact absurd h.1 (by decide)

theorem URL_String_eq_slash (u : url.URL) :
    u.String = ['/'] ↔ u = { Path := ['/'] } := by
  constructor
  · intro h
    obtain ⟨sch, host, path, fq, rq⟩ := u
    by_cases hs : sch = []
    · by_cases hh : host = []
      · subst hs hh
        simp only [url.URL.String, ne_eq, not_true_eq_false, or_self, if_false, and_false,
          List.length_nil, true_and, List.nil_append] at h
        have hep : ∀ ep, url.URL.EscapedPath
            { Scheme := [], Host := [], Path := path, ForceQuery := fq, RawQuery := rq } = ep →
            ep = ['/'] → path = ['/'] := by
          intro ep h1 h2
          subst h2
          unfold url.URL.EscapedPath at h1
          simp only at h1
          split_ifs at h1 with hstar
          · exact absurd h1 (by decide)
          · exact escape_eq_slash path _ h1
        generalize url.URL.EscapedPath
          { Scheme := [], Host := [], Path := path, ForceQuery := fq, RawQuery := rq } = ep at h hep
        have hl := congrArg List.length h
        split_ifs at h hl with hq hc hc
        · simp at hl
        · exfalso
          cases ep with
          | nil => simp at h
          | cons c cs => simp at hl
        · simp at hl
        · have hpath := hep ep rfl (by simpa using h)
          have hfq : fq = false := by
            cases fq
            · rfl
            · exact absurd (Or.inl rfl) hq
          have hrq : rq = [] := by
            by_contra hne
            exact hq (Or.inr hne)
          rw [hpath, hfq, hrq]
      · exfalso
        have hl := congrArg List.length h
        simp only [url.URL.String, hs, hh, ne_eq, not_true_eq_false, not_false_eq_true,
          false_or, true_or, or_true, if_true, if_false, List.nil_append] at hl
        split_ifs at hl <;> simp at hl
    · exfalso
      have hp := List.length_pos.2 hs
      have hl := congrArg List.length h
      simp only [url.URL.String, hs, ne_eq, not_false_eq_true, true_or, if_true] at hl
      split_ifs at hl <;> simp at hl <;> omega
  · intro h
    subst h
    decide


/-! ## Lemmas on `filepath` -/

theorem IsAbs_iff (p : Str) : filepath.IsAbs p = true ↔ ∃ r, p = '/' :: r := by
  constructor
  · intro h
    unfold filepath.IsAbs at h
    split at h
    · exact ⟨_, rfl⟩
    · cases h
  · rintro ⟨r, rfl⟩
    rfl

theorem backtrack_ge (out : Str) (dotdot w : Nat) (h : dotdot ≤ w) :
    dotdot ≤ filepath.backtrack out dotdot w := by
  induction w with
  | zero => simpa [filepath.backtrack] using h
  | succ w ih =>
    unfold filepath.backtrack
    split_ifs with hc
    · exact ih (by omega)
    · exact h

theorem backtrack_le (out : Str) (dotdot w : Nat) : filepath.backtrack out dotdot w ≤ w := by
  induction w with
  | zero => simp [filepath.backtrack]
  | succ w ih =>
    unfold filepath.backtrack
    split_ifs with hc
    · omega
    · exact le_rfl

theorem cleanLoop_rooted (fuel : Nat) (path out : Str) (dotdot : Nat)
    (hout : filepath.IsAbs out = true) (hdd : 1 ≤ dotdot) :
    filepath.IsAbs (filepath.cleanLoop true fuel path out dotdot) = true := by
  induction fuel generalizing path out with
  | zero => simpa [filepath.cleanLoop] using hout
  | succ fuel ih =>
    obtain ⟨r, hr⟩ := (IsAbs_iff out).1 hout
    unfold filepath.cleanLoop
    cases path with
    | nil => simpa using hout
    | cons c rest =>
      simp only [Bool.not_true, Bool.false_eq_true, if_false, Bool.true_and, Bool.false_and,
        Bool.or_false]
      by_cases h1 : c = '/'
      · rw [if_pos h1]
        exact ih _ _ hout
      · rw [if_neg h1]
        by_cases h2 : c = '.' ∧ (rest = [] ∨ rest.head? = some '/')
        · rw [if_pos h2]
          exact ih _ _ hout
        · rw [if_neg h2]
          by_cases h3 : c = '.' ∧ rest.head? = some '.' ∧
              (rest.tail = [] ∨ rest.tail.head? = some '/')
          · rw [if_pos h3]
            by_cases h4 : dotdot < out.length
            · rw [if_pos h4]
              apply ih
              have hb := backtrack_ge out dotdot (out.length - 1) (by omega)
              obtain ⟨n, hn⟩ : ∃ n, filepath.backtrack out dotdot (out.length - 1) = n + 1 :=
                ⟨filepath.backtrack out dotdot (out.length - 1) - 1, by omega⟩
              rw [hn, hr]
              rfl
            · rw [if_neg h4]
              exact ih _ _ hout
          · rw [if_neg h3]
            apply ih
            subst hr
            by_cases h5 : (('/' :: r).length != 1) = true
            · rw [if_pos h5]
              rfl
            · rw [if_neg h5]
              rfl

theorem Clean_IsAbs (p : Str) (h : filepath.IsAbs p = true) :
    filepath.IsAbs (filepath.Clean p) = true := by
  obtain ⟨r, rfl⟩ := (IsAbs_iff p).1 h
  have hl := cleanLoop_rooted ('/' :: r).length r ['/'] 1 rfl le_rfl
  obtain ⟨q, hq⟩ := (IsAbs_iff _).1 hl
  simp only [List.length_cons] at hq
  simp [filepath.Clean, hq, filepath.IsAbs]

theorem Abs_IsAbs (d path abs : Str) (hd : filepath.IsAbs d = true)
    (h : filepath.Abs (some d) path = .ok abs) : filepath.IsAbs abs = true := by
  unfold filepath.Abs at h
  split_ifs at h with hp
  · simp only [Except.ok.injEq] at h
    subst h
    exact Clean_IsAbs path hp
  · simp only [Except.ok.injEq] at h
    subst h
    obtain ⟨r, rfl⟩ := (IsAbs_iff d).1 hd
    simp only [filepath.Join, ne_eq, reduceCtorEq, not_false_eq_true, if_true]
    exact Clean_IsAbs _ rfl


theorem cleanLoop_fuel_irrelevant (rooted : Bool) (f1 f2 : Nat) (path out : Str) (dotdot : Nat)
    (h1 : path.length ≤ f1) (h2 : path.length ≤ f2) :
    filepath.cleanLoop rooted f1 path out dotdot = filepath.cleanLoop rooted f2 path out dotdot := by
  induction f1 generalizing f2 path out dotdot with
  | zero =>
    have hp : path = [] := List.length_eq_zero.1 (by omega)
    subst hp
    cases f2 <;> simp [filepath.cleanLoop]
  | succ f1 ih =>
    cases f2 with
    | zero =>
      have hp : path = [] := List.length_eq_zero.1 (by omega)
      subst hp
      simp [filepath.cleanLoop]
    | succ f2 =>
      cases path with
      | nil => simp [filepath.cleanLoop]
      | cons c rest =>
        have hr1 : rest.length ≤ f1 := by simpa using h1
        have hr2 : rest.length ≤ f2 := by simpa using h2
        have ht : rest.tail.length ≤ rest.length := by simp
        have hdw : ((c :: rest).dropWhile (fun b => b != '/')).length ≤ rest.length ∨ c = '/' := by
          by_cases hc : c = '/'
          · exact Or.inr hc
          · left
            rw [List.dropWhile_cons_of_pos (by simpa using hc)]
            exact (List.dropWhile_sublist _).length_le
        unfold filepath.cleanLoop
        simp only
        by_cases c1 : c = '/'
        · rw [if_pos c1, if_pos c1]
          exact ih _ _ _ _ hr1 hr2
        · rw [if_neg c1, if_neg c1]
          have hdw1 := hdw.resolve_right c1
          split_ifs <;>
            first
            | exact ih _ _ _ _ hr1 hr2
            | exact ih _ _ _ _ (by omega) (by omega)

theorem filepath_Split_append (p : Str) :
    (filepath.Split p).1 ++ (filepath.Split p).2 = p := by
  induction p with
  | nil => rfl
  | cons c cs ih =>
    unfold filepath.Split
    simp only
    split_ifs <;> simp [ih]

theorem filepath_Split_snd_no_slash (p : Str) : '/' ∉ (filepath.Split p).2 := by
  induction p with
  | nil => simp [filepath.Split]
  | cons c cs ih =>
    unfold filepath.Split
    simp only
    split_ifs with h1 h2 h3
    · exact ih
    · exact h2
    · exact ih
    · simp only [List.mem_cons, not_or]
      exact ⟨fun e => h1 e.symm, h3⟩

theorem filepath_Split_snd_eq_nil (p : Str) (h : (filepath.Split p).2 = []) :
    p = [] ∨ p.getLast? = some '/' := by
  induction p with
  | nil => exact Or.inl rfl
  | cons c cs ih =>
    right
    unfold filepath.Split at h
    simp only at h
    split_ifs at h with h1 h2 h3
    · rcases ih h with e | e
      · subst e
        simp at h2
      · cases cs with
        | nil => simp at h2
        | cons d ds => simpa [List.getLast?_cons_cons] using e
    · simp only at h
      subst h
      simp [h1]
    · rcases ih h with e | e
      · subst e
        simp at h3
      · cases cs with
        | nil => simp at h3
        | cons d ds => simpa [List.getLast?_cons_cons] using e

theorem baseName_eq_Split (p : Str) (hne : p ≠ []) (hlast : p.getLast? ≠ some '/') :
    baseName p = (filepath.Split p).2 := by
  have hrev : p.reverse.dropWhile (fun b => b == '/') = p.reverse := by
    cases hr : p.reverse with
    | nil => rfl
    | cons c cs =>
      have hc : p.getLast? = some c := by
        rw [List.getLast?_eq_head?_reverse, hr]
        rfl
      have hne1 : c ≠ '/' := fun e => hlast (by rw [hc, e])
      rw [List.dropWhile_cons_of_neg (by simpa using hne1)]
  have hs : (filepath.Split p).2 ≠ [] := fun e => by
    rcases filepath_Split_snd_eq_nil p e with h1 | h1
    · exact hne h1
    · exact hlast h1
  simp [baseName, hne, hrev, hs]

theorem parseToken_no_colon (wd : Option Str) (t k v : Str) (hc : ':' ∉ t)
    (h : parseToken wd t = .ok (k, v)) : k = (filepath.Split t).2 := by
  unfold parseToken at h
  rw [Split_of_not_mem t ':' hc] at h
  simp only [List.length_singleton, List.headD_cons] at h
  cases ha : filepath.Abs wd t with
  | error e => simp [ha] at h
  | ok abs =>
    simp only [ha, Except.ok.injEq, Prod.mk.injEq] at h
    exact h.1.symm

theorem parseToken_with_colon (wd : Option Str) (p a k v : Str) (hp : ':' ∉ p) (ha : ':' ∉ a)
    (h : parseToken wd (p ++ ':' :: a) = .ok (k, v)) : k = a := by
  unfold parseToken at h
  rw [Split_append_sep p a ':' hp, Split_of_not_mem a ':' ha] at h
  cases hab : filepath.Abs wd p with
  | error e => simp [hab] at h
  | ok abs =>
    simp [hab] at h
    exact h.1.symm

theorem parseLoop_mem (wd : Option Str) (ts : List Str) (m0 m : AliasMap)
    (h : parseLoop wd ts m0 = .ok m) :
    ∀ kv ∈ m, kv ∈ m0 ∨ ∃ t ∈ ts, parseToken wd t = .ok kv := by
  induction ts generalizing m0 with
  | nil =>
    simp only [parseLoop, Except.ok.injEq] at h
    subst h
    exact fun kv hkv => Or.inl hkv
  | cons t ts ih =>
    cases ht : parseToken wd t with
    | error e => simp [parseLoop, ht] at h
    | ok r =>
      obtain ⟨al, abs⟩ := r
      simp only [parseLoop, ht] at h
      intro kv hkv
      rcases ih _ h kv hkv with h1 | ⟨t1, ht1, h1⟩
      · simp only [AliasMap.set, List.mem_cons, List.mem_filter] at h1
        rcases h1 with h1 | h1
        · exact Or.inr ⟨t, by simp, by rw [ht, h1]⟩
        · exact Or.inl h1.1
      · exact Or.inr ⟨t1, by simp [ht1], h1⟩


/-! ## Lemmas on the mux and `http.Redirect` -/

theorem hexEscapeNonASCII_ascii (s : Str) (h : ∀ c ∈ s, c.toNat < 128) :
    http.hexEscapeNonASCII s = s := by
  induction s with
  | nil => rfl
  | cons c cs ih =>
    have hc : c.toNat < 128 := h c (by simp)
    have hcs : ∀ d ∈ cs, d.toNat < 128 := fun d hd => h d (by simp [hd])
    have ih1 := ih hcs
    unfold http.hexEscapeNonASCII at ih1 ⊢
    rw [List.flatMap_cons, ih1, if_pos hc]
    rfl

theorem cleanLoop_nil (rooted : Bool) (fuel : Nat) (out : Str) (dotdot : Nat) :
    filepath.cleanLoop rooted fuel [] out dotdot = out := by
  cases fuel <;> simp [filepath.cleanLoop]

theorem Clean_segment (k : Str) (hne : k ≠ []) (hslash : '/' ∉ k) (hdot : k ≠ ['.'])
    (hdotdot : k ≠ ['.', '.']) : filepath.Clean ('/' :: k) = '/' :: k := by
  cases k with
  | nil => exact absurd rfl hne
  | cons c rest =>
    have hc : c ≠ '/' := fun e => hslash (by simp [e])
    have hrest : '/' ∉ rest := fun e => hslash (by simp [e])
    have h2 : ¬ (c = '.' ∧ (rest = [] ∨ rest.head? = some '/')) := by
      rintro ⟨e1, e2 | e2⟩
      · exact hdot (by rw [e1, e2])
      · exact hrest (List.mem_of_mem_head? e2)
    have h3 : ¬ (c = '.' ∧ rest.head? = some '.' ∧
        (rest.tail = [] ∨ rest.tail.head? = some '/')) := by
      rintro ⟨e1, e2, e3⟩
      cases rest with
      | nil => simp at e2
      | cons d t =>
        have hd : d = '.' := by simpa using e2
        rcases e3 with e3 | e3
        · have ht : t = [] := by simpa using e3
          exact hdotdot (by rw [e1, hd, ht])
        · have : '/' ∈ t := List.mem_of_mem_head? (by simpa using e3)
          exact hrest (by simp [this])
    have htake : (c :: rest).takeWhile (fun b => b != '/') = c :: rest := by
      rw [List.takeWhile_eq_self_iff]
      intro x hx
      have : x ≠ '/' := fun e => hslash (e ▸ hx)
      simpa using this
    have hdrop : (c :: rest).dropWhile (fun b => b != '/') = [] := by
      rw [List.dropWhile_eq_nil_iff]
      intro x hx
      have : x ≠ '/' := fun e => hslash (e ▸ hx)
      simpa using this
    have hloop : filepath.cleanLoop true (rest.length + 1 + 1) (c :: rest) ['/'] 1
        = '/' :: c :: rest := by
      rw [filepath.cleanLoop]
      simp only [if_neg hc, if_neg h2, if_neg h3, htake, hdrop, cleanLoop_nil]
      rfl
    simp [filepath.Clean, hloop]

theorem redirectTarget_segment (b : Bool) (r : Request) (k : Str) (hne : k ≠ [])
    (hslash : '/' ∉ k) (hq : '?' ∉ k) (hdot : k ≠ ['.']) (hdotdot : k ≠ ['.', '.']) :
    http.redirectTarget b r ('/' :: k) = '/' :: k := by
  cases b with
  | false => rfl
  | true =>
    have htake : ('/' :: k).takeWhile (fun b => b != '?') = '/' :: k := by
      rw [List.takeWhile_eq_self_iff]
      intro x hx
      have : x ≠ '?' := by
        rcases List.mem_cons.1 hx with e | e
        · rw [e]
          decide
        · exact fun e1 => hq (e1 ▸ e)
      simpa using this
    have hdrop : ('/' :: k).dropWhile (fun b => b != '?') = [] := by
      rw [List.dropWhile_eq_nil_iff]
      intro x hx
      have : x ≠ '?' := by
        rcases List.mem_cons.1 hx with e | e
        · rw [e]
          decide
        · exact fun e1 => hq (e1 ▸ e)
      simpa using this
    have hlast : ('/' :: k).getLast? ≠ some '/' := by
      intro e
      have hmem : '/' ∈ k := by
        cases k with
        | nil => exact absurd rfl hne
        | cons c rest =>
          rw [List.getLast?_cons_cons] at e
          exact List.mem_of_getLast?_eq_some e
      exact hslash hmem
    simp [http.redirectTarget, htake, hdrop, hlast, path.Clean,
      Clean_segment k hne hslash hdot hdotdot]

theorem cleanPath_IsAbs (p : Str) : filepath.IsAbs (http.cleanPath p) = true := by
  unfold http.cleanPath
  by_cases hp : p = []
  · simp [hp, filepath.IsAbs]
  · rw [if_neg hp]
    have hp1 : filepath.IsAbs (if p.head? ≠ some '/' then '/' :: p else p) = true := by
      split_ifs with h
      · rfl
      · cases p with
        | nil => exact absurd rfl hp
        | cons c cs =>
          have : c = '/' := by simpa using h
          rw [this]
          rfl
    revert hp1
    generalize (if p.head? ≠ some '/' then '/' :: p else p) = p1
    intro hp1
    have hnp := Clean_IsAbs _ hp1
    obtain ⟨q, hq⟩ := (IsAbs_iff _).1 hnp
    simp only [path.Clean]
    split_ifs
    · exact hp1
    · rw [hq]
      rfl
    · exact hnp

/-- The mux hands a request to the registered function when the request target
is not `*` and the path is in canonical form. -/
theorem ServeHTTP_canonical (relative : Str → Bool) (h : Handler) (req : Request)
    (hstar : req.RequestURI ≠ ['*']) (hclean : http.cleanPath req.URL.Path = req.URL.Path) :
    h.ServeHTTP relative req = h.handleFunc relative req := by
  have habs : filepath.IsAbs req.URL.Path = true := by
    rw [← hclean]
    exact cleanPath_IsAbs _
  unfold Handler.ServeHTTP
  rw [if_neg hstar]
  split_ifs with hm
  · simp [Handler.muxHandler, habs]
  · simp [hclean, Handler.muxHandler, habs]

/-! ## The claims on `parsePathspec` -/

/-- C1: for a path `p` and an alias `a` without space and colon, and a working
directory for which `filepath.Abs p` succeeds with result `abs`, parsing
`p + ":" + a` succeeds with the map that has the one entry `a ↦ abs`. -/
theorem parsePathspec_path_alias (wd : Option Str) (p a abs : Str)
    (hp : ' ' ∉ p ∧ ':' ∉ p) (ha : ' ' ∉ a ∧ ':' ∉ a)
    (habs : filepath.Abs wd p = .ok abs) :
    parsePathspec wd (p ++ [':'] ++ a) = .ok [(a, abs)] := by
  have hsp : ' ' ∉ p ++ [':'] ++ a := by
    simp [hp.1, ha.1]
  have hcol : strings.Split (p ++ [':'] ++ a) ':' = [p, a] := by
    have := Split_append_sep p a ':' hp.2
    rw [Split_of_not_mem a ':' ha.2] at this
    simpa using this
  have htok : parseToken wd (p ++ [':'] ++ a) = .ok (a, abs) := by
    unfold parseToken
    rw [hcol]
    simp [habs]
  unfold parsePathspec
  rw [Split_of_not_mem _ ' ' hsp]
  simp only [parseLoop, htok, AliasMap.set, List.filter_nil]

theorem parsePathspec_path_alias_witness :
    parsePathspec (some "/srv".toList) ("docs".toList ++ [':'] ++ "d".toList)
      = .ok [("d".toList, "/srv/docs".toList)] :=
  parsePathspec_path_alias (some "/srv".toList) "docs".toList "d".toList "/srv/docs".toList
    (by decide) (by decide) (by decide)

/-- C3: when `filepath.Abs` succeeds on the path part of every token,
`parsePathspec` returns an error exactly when one of the tokens obtained by
splitting the pathspec on single spaces has two or more colons. -/
theorem parsePathspec_error_iff (wd : Option Str) (s : Str)
    (habs : ∀ t ∈ strings.Split s ' ',
      ∃ abs, filepath.Abs wd ((strings.Split t ':').headD []) = .ok abs) :
    (∃ e, parsePathspec wd s = .error e) ↔ ∃ t ∈ strings.Split s ' ', 2 ≤ t.count ':' := by
  unfold parsePathspec
  rw [parseLoop_error_iff]
  constructor
  · rintro ⟨t, ht, e, he⟩
    refine ⟨t, ht, ?_⟩
    rcases parseToken_error_cases wd t e he with h | h
    · exact h
    · obtain ⟨abs, habs1⟩ := habs t ht
      rw [habs1] at h
      cases h
  · rintro ⟨t, ht, h2⟩
    exact ⟨t, ht, _, parseToken_of_two_le wd t h2⟩

theorem parsePathspec_error_iff_witness :
    (∃ e, parsePathspec (some "/srv".toList) "x:y a:b:c".toList = .error e) ↔
      ∃ t ∈ strings.Split "x:y a:b:c".toList ' ', 2 ≤ t.count ':' :=
  parsePathspec_error_iff (some "/srv".toList) "x:y a:b:c".toList
    (fun _ _ => Abs_some_ok "/srv".toList _)


/-- C4: last write wins.  Parsing succeeds exactly when every token on its own
is accepted, so two tokens with the same alias cause no error; and when it
succeeds, the keys of the map are exactly the aliases of the tokens, and the
value under a key `k` is `filepath.Abs` of the path part of the last token whose
alias is `k`. -/
theorem parsePathspec_last_write_wins (wd : Option Str) (s : Str) :
    ((∃ m, parsePathspec wd s = .ok m) ↔
      ∀ t ∈ strings.Split s ' ', ∃ r, parseToken wd t = .ok r) ∧
    ∀ m, parsePathspec wd s = .ok m →
      (∀ k, k ∈ m.keys ↔ ∃ t ∈ strings.Split s ' ', ∃ v, parseToken wd t = .ok (k, v)) ∧
      (∀ k v, m.get? k = some v ↔
        ∃ pre t post, strings.Split s ' ' = pre ++ t :: post ∧
          parseToken wd t = .ok (k, v) ∧
          filepath.Abs wd ((strings.Split t ':').headD []) = .ok v ∧
          ∀ t1 ∈ post, ∀ v1, parseToken wd t1 ≠ .ok (k, v1)) := by
  refine ⟨parseLoop_ok_iff wd _ [], fun m h => ?_⟩
  obtain ⟨hk, hv⟩ := parseLoop_last wd _ m h
  refine ⟨hk, fun k v => ?_⟩
  rw [hv]
  constructor
  · rintro ⟨pre, t, post, h1, h2, h3⟩
    exact ⟨pre, t, post, h1, h2, parseToken_ok_abs wd t k v h2, h3⟩
  · rintro ⟨pre, t, post, h1, h2, _, h3⟩
    exact ⟨pre, t, post, h1, h2, h3⟩

theorem parsePathspec_last_write_wins_witness :
    AliasMap.get? [("a".toList, "/srv/y".toList)] "a".toList = some "/srv/y".toList ↔
      ∃ pre t post, strings.Split "x:a y:a".toList ' ' = pre ++ t :: post ∧
        parseToken (some "/srv".toList) t = .ok ("a".toList, "/srv/y".toList) ∧
        filepath.Abs (some "/srv".toList) ((strings.Split t ':').headD [])
          = .ok "/srv/y".toList ∧
        ∀ t1 ∈ post, ∀ v1, parseToken (some "/srv".toList) t1 ≠ .ok ("a".toList, v1) :=
  ((parsePathspec_last_write_wins (some "/srv".toList) "x:a y:a".toList).2
    [("a".toList, "/srv/y".toList)] (by decide)).2 "a".toList "/srv/y".toList

/-- C10: a map returned by `parsePathspec` has pairwise different keys, at least
one entry, and at most as many entries as there are tokens (one more than the
number of spaces of the pathspec); so a handler built by `New` has an empty
alias map exactly in archive mode. -/
theorem parsePathspec_size (wd : Option Str) (s : Str) (m : AliasMap)
    (h : parsePathspec wd s = .ok m) :
    m.keys.Nodup ∧ 1 ≤ m.length ∧ m.length ≤ s.count ' ' + 1 ∧
      ∀ (env : Env) (zipOn debug : Bool) (hd : Handler), env.getwd = wd →
        New env s zipOn debug = .ok hd → (hd.aliasmap = [] ↔ zipOn = true) := by
  obtain ⟨hlen, hpos, hnd⟩ := parseLoop_size wd _ [] m h
  have h1 : 1 ≤ m.length := hpos (Split_ne_nil s ' ')
  refine ⟨hnd (by simp [AliasMap.keys]), h1, ?_, ?_⟩
  · rw [Split_length] at hlen
    simpa using hlen
  · intro env zipOn debug hd hwd hnew
    cases zipOn with
    | true =>
      cases ho : env.openReader s with
      | none => simp [New, ho] at hnew
      | some rc =>
        simp only [New, ho, if_true, Except.ok.injEq] at hnew
        subst hnew
        simp
    | false =>
      subst hwd
      simp only [New, h, Bool.false_eq_true, if_false, Except.ok.injEq] at hnew
      subst hnew
      have hne : m ≠ [] := fun e => by simp [e] at h1
      simp [hne]

theorem parsePathspec_size_witness :
    AliasMap.keys [("b".toList, "/srv/y".toList), ("a".toList, "/srv/x".toList)] |>.Nodup :=
  (parsePathspec_size (some "/srv".toList) "x:a y:b".toList
    [("b".toList, "/srv/y".toList), ("a".toList, "/srv/x".toList)] (by decide)).1


/-- C2 fails on the code: for the pathspec `docs/` the alias is the empty string
while the base name of `docs/` is `docs`, and for the pathspec `/` the alias is
the empty string while the base name is `/`. -/
theorem trailing_slash_alias_is_empty :
    parsePathspec (some "/srv".toList) "docs/".toList = .ok [([], "/srv/docs".toList)] ∧
    baseName "docs/".toList = "docs".toList ∧
    parsePathspec (some "/srv".toList) "/".toList = .ok [([], "/".toList)] ∧
    baseName "/".toList = "/".toList := by
  decide

/-- C7 as stated fails: with the working directory `/srv` the pathspec
`x: y:a/b` is accepted, and the returned map has the empty key and the key
`a/b`, which contains a separator. -/
theorem explicit_alias_not_checked :
    filepath.IsAbs "/srv".toList = true ∧
    parsePathspec (some "/srv".toList) "x: y:a/b".toList
      = .ok [("a/b".toList, "/srv/y".toList), ([], "/srv/x".toList)] ∧
    ¬ ∀ kv ∈ [("a/b".toList, "/srv/y".toList), (([] : Str), "/srv/x".toList)],
        kv.1 ≠ [] ∧ '/' ∉ kv.1 ∧ filepath.IsAbs kv.2 = true := by
  decide

/-- C7, amended: when `parsePathspec` succeeds with an absolute working
directory, every value of the map is an absolute path, and every entry is the
alias and absolute path of one of the tokens; when that token has no colon, the
key is the part after its final separator, contains no separator, and is
non-empty if the token is non-empty and does not end with a separator; when the
token is `p:a`, the key is `a` as written. -/
theorem parsePathspec_entries (d s : Str) (m : AliasMap)
    (hd : filepath.IsAbs d = true) (h : parsePathspec (some d) s = .ok m) :
    ∀ kv ∈ m, filepath.IsAbs kv.2 = true ∧
      ∃ t ∈ strings.Split s ' ', parseToken (some d) t = .ok kv ∧
        (':' ∉ t → kv.1 = (filepath.Split t).2 ∧ '/' ∉ kv.1 ∧
          (t ≠ [] → t.getLast? ≠ some '/' → kv.1 ≠ [] ∧ kv.1 = baseName t)) ∧
        (∀ p a, t = p ++ ':' :: a → ':' ∉ p → ':' ∉ a → kv.1 = a) := by
  intro kv hkv
  obtain ⟨k, v⟩ := kv
  rcases parseLoop_mem (some d) _ [] m h (k, v) hkv with h0 | ⟨t, ht, hp⟩
  · simp at h0
  · refine ⟨Abs_IsAbs d _ v hd (parseToken_ok_abs (some d) t k v hp), t, ht, hp, ?_, ?_⟩
    · intro hc
      have hk : k = (filepath.Split t).2 := parseToken_no_colon (some d) t k v hc hp
      refine ⟨hk, ?_, fun hne hlast => ?_⟩
      · show '/' ∉ k
        rw [hk]
        exact filepath_Split_snd_no_slash t
      · show k ≠ [] ∧ k = baseName t
        rw [hk]
        refine ⟨fun e => ?_, (baseName_eq_Split t hne hlast).symm⟩
        rcases filepath_Split_snd_eq_nil t e with h1 | h1
        · exact hne h1
        · exact hlast h1
    · intro p a hpa hcp hca
      subst hpa
      exact parseToken_with_colon (some d) p a k v hcp hca hp

theorem parsePathspec_entries_witness :
    filepath.IsAbs "/srv/x/docs".toList = true ∧
      ∃ t ∈ strings.Split "x/docs y:a/b".toList ' ',
        parseToken (some "/srv".toList) t = .ok ("docs".toList, "/srv/x/docs".toList) ∧
        (':' ∉ t → "docs".toList = (filepath.Split t).2 ∧ '/' ∉ "docs".toList ∧
          (t ≠ [] → t.getLast? ≠ some '/' →
            "docs".toList ≠ [] ∧ "docs".toList = baseName t)) ∧
        (∀ p a, t = p ++ ':' :: a → ':' ∉ p → ':' ∉ a → "docs".toList = a) :=
  parsePathspec_entries "/srv".toList "x/docs y:a/b".toList
    [("a/b".toList, "/srv/y".toList), ("docs".toList, "/srv/x/docs".toList)]
    (by decide) (by decide) ("docs".toList, "/srv/x/docs".toList) (by decide)


/-! ## The claims on the handler -/

theorem Redirect_root (relative : Str → Bool) (r : Request) (code : Nat) :
    http.Redirect relative r ['/'] code = .redirect ['/'] code := by
  unfold http.Redirect
  cases relative ['/'] <;> rfl

/-- C5 as stated fails: the handler built for the pathspec `docs` has the one
alias `docs`, and the request `GET /?x=1`, whose URL path is `/`, is not
redirected but handed to the static file responder. -/
theorem root_with_query_not_redirected :
    New srvEnv "docs".toList false false
      = .ok { fs := .pickfs [("docs".toList, "/srv/docs".toList)],
              aliasmap := [("docs".toList, "/srv/docs".toList)], debug := false } ∧
    ∀ relative : Str → Bool,
      (Handler.ServeHTTP relative
          { fs := .pickfs [("docs".toList, "/srv/docs".toList)],
            aliasmap := [("docs".toList, "/srv/docs".toList)], debug := false }
          { Method := "GET".toList, RequestURI := "/?x=1".toList,
            URL := { Path := "/".toList, RawQuery := "x=1".toList } }).2
        = .fileserver (.pickfs [("docs".toList, "/srv/docs".toList)])
            { Method := "GET".toList, RequestURI := "/?x=1".toList,
              URL := { Path := "/".toList, RawQuery := "x=1".toList } } :=
  ⟨by decide, fun _ => rfl⟩

/-- C5, amended: for a handler built by `New` in alias mode whose alias map has
exactly one entry, with key `k`, a request whose URL is exactly `/` (path `/`, no
query string, no scheme and host; request target not `*`) is answered by a
redirect with status 302, and the static file responder is not invoked.  When
`k` is non-empty, has no `/` and no `?`, and is neither `.` nor `..`, the
`Location` of the redirect is `/` followed by `k`, with the non-ASCII bytes
hex-escaped; so for such an ASCII `k` it is `/` followed by `k` as written. -/
theorem single_alias_root_redirect (relative : Str → Bool) (env : Env) (s : Str)
    (debug : Bool) (h : Handler) (k v : Str) (req : Request)
    (_hnew : New env s false debug = .ok h) (hone : h.aliasmap = [(k, v)])
    (hstar : req.RequestURI ≠ ['*']) (hurl : req.URL = { Path := ['/'] }) :
    req.URL.String = ['/'] ∧
    (∃ loc, (h.ServeHTTP relative req).2 = .redirect loc 302) ∧
    (∀ fs r, (h.ServeHTTP relative req).2 ≠ .fileserver fs r) ∧
    (k ≠ [] → '/' ∉ k → '?' ∉ k → k ≠ ['.'] → k ≠ ['.', '.'] →
      (h.ServeHTTP relative req).2 = .redirect (http.hexEscapeNonASCII ('/' :: k)) 302 ∧
      ((∀ c ∈ k, c.toNat < 128) →
        (h.ServeHTTP relative req).2 = .redirect ('/' :: k) 302)) := by
  have hs : req.URL.String = ['/'] := (URL_String_eq_slash req.URL).2 hurl
  have hclean : http.cleanPath req.URL.Path = req.URL.Path := by
    rw [hurl]
    decide
  have hr : (h.ServeHTTP relative req).2 = http.Redirect relative req ('/' :: k) 302 := by
    rw [ServeHTTP_canonical relative h req hstar hclean]
    simp [Handler.handleFunc, hs, hone, http.StatusFound]
  refine ⟨hs, ⟨_, hr⟩, fun fs r hf => ?_, fun hne hslash hq hdot hdotdot => ?_⟩
  · rw [hr] at hf
    cases hf
  · have hloc : (h.ServeHTTP relative req).2
        = .redirect (http.hexEscapeNonASCII ('/' :: k)) 302 := by
      rw [hr]
      unfold http.Redirect
      rw [redirectTarget_segment _ req k hne hslash hq hdot hdotdot]
    refine ⟨hloc, fun hascii => ?_⟩
    rw [hloc, hexEscapeNonASCII_ascii]
    intro c hc
    rcases List.mem_cons.1 hc with e | e
    · rw [e]
      decide
    · exact hascii c e

theorem single_alias_root_redirect_witness :
    (Handler.ServeHTTP (fun _ => true)
        { fs := .pickfs [("docs".toList, "/srv/docs".toList)],
          aliasmap := [("docs".toList, "/srv/docs".toList)], debug := true }
        { Method := "GET".toList, RequestURI := ['/'], URL := { Path := ['/'] } }).2
      = .redirect ('/' :: "docs".toList) 302 :=
  ((single_alias_root_redirect (fun _ => true) srvEnv "docs".toList true _ "docs".toList
    "/srv/docs".toList { Method := "GET".toList, RequestURI := ['/'], URL := { Path := ['/'] } }
    (by decide) rfl (by decide) rfl).2.2.2
    (by decide) (by decide) (by decide) (by decide) (by decide)).2 (by decide)

/-- C6 as stated fails: the handler built for the pathspec `/x:a /y:b` has two
aliases, and the request `GET //`, for the non-root path `//`, is not handed to
the static file responder: the mux answers it with a redirect (status 301) to
the canonical path `/`. -/
theorem mux_redirects_unclean_path :
    New srvEnv "/x:a /y:b".toList false false
      = .ok { fs := .pickfs [("b".toList, "/y".toList), ("a".toList, "/x".toList)],
              aliasmap := [("b".toList, "/y".toList), ("a".toList, "/x".toList)],
              debug := false } ∧
    ∀ relative : Str → Bool,
      (Handler.ServeHTTP relative
          { fs := .pickfs [("b".toList, "/y".toList), ("a".toList, "/x".toList)],
            aliasmap := [("b".toList, "/y".toList), ("a".toList, "/x".toList)],
            debug := false }
          { Method := "GET".toList, RequestURI := "//".toList,
            URL := { Path := "//".toList } }).2
        = .redirect "/".toList 301 :=
  ⟨by decide, fun relative => Redirect_root relative _ 301⟩

/-- C6, amended: for a handler built by `New` and a request that the mux hands to
the registered function (request target not `*`, path in the canonical form of
`cleanPath`), when the alias map does not have exactly one entry, or the URL path
of the request is not `/`, nothing is redirected: the response is that of the
static file responder for the request. -/
theorem no_redirect_delegates (relative : Str → Bool) (env : Env) (s : Str)
    (zipOn debug : Bool) (h : Handler) (req : Request)
    (_hnew : New env s zipOn debug = .ok h)
    (hstar : req.RequestURI ≠ ['*']) (hclean : http.cleanPath req.URL.Path = req.URL.Path)
    (hcond : h.aliasmap.length ≠ 1 ∨ req.URL.Path ≠ ['/']) :
    (h.ServeHTTP relative req).2 = .fileserver h.fs req := by
  have hnot : ¬ (req.URL.String = ['/'] ∧ h.aliasmap.length = 1) := by
    rintro ⟨hs, hl⟩
    rcases hcond with hc | hc
    · exact hc hl
    · have := (URL_String_eq_slash req.URL).1 hs
      exact hc (by rw [this])
  rw [ServeHTTP_canonical relative h req hstar hclean]
  simp only [Handler.handleFunc, if_neg hnot]

theorem no_redirect_delegates_witness :
    (Handler.ServeHTTP (fun _ => true)
        { fs := .pickfs [("b".toList, "/y".toList), ("a".toList, "/x".toList)],
          aliasmap := [("b".toList, "/y".toList), ("a".toList, "/x".toList)], debug := false }
        { Method := "GET".toList, RequestURI := ['/'], URL := { Path := ['/'] } }).2
      = .fileserver (.pickfs [("b".toList, "/y".toList), ("a".toList, "/x".toList)])
          { Method := "GET".toList, RequestURI := ['/'], URL := { Path := ['/'] } } :=
  no_redirect_delegates (fun _ => true) srvEnv "/x:a /y:b".toList false false _
    { Method := "GET".toList, RequestURI := ['/'], URL := { Path := ['/'] } }
    (by decide) (by decide) (by decide) (Or.inl (by decide))

/-- C8 as stated fails for the clause on every request: in archive mode too the
request `GET //` is answered by the mux with a redirect (status 301) to `/` and
does not reach the file responder of the archive. -/
theorem archive_mode_mux_redirects_unclean_path :
    New zipEnv "a:b:c d".toList true false
      = .ok { fs := .zipfs { files := ["index.html".toList] }, aliasmap := [], debug := false } ∧
    ∀ relative : Str → Bool,
      (Handler.ServeHTTP relative
          { fs := .zipfs { files := ["index.html".toList] }, aliasmap := [], debug := false }
          { Method := "GET".toList, RequestURI := "//".toList,
            URL := { Path := "//".toList } }).2
        = .redirect "/".toList 301 :=
  ⟨by decide, fun relative => Redirect_root relative _ 301⟩

/-- C8, amended: in archive mode the pathspec is handed to `zip.OpenReader` as it
is; when the archive opens, `New` succeeds whatever the pathspec looks like, the
alias map of the handler is empty, and every request that the mux hands to the
registered function (request target not `*`, path in the canonical form of
`cleanPath`), the request for `/` included, is handed to the file responder of
the archive, without a redirect. -/
theorem archive_mode_no_alias (env : Env) (s : Str) (debug : Bool) (rcZip : ZipReadCloser)
    (hopen : env.openReader s = some rcZip) :
    New env s true debug = .ok { fs := .zipfs rcZip, aliasmap := [], debug := debug } ∧
    ∀ (relative : Str → Bool) (req : Request), req.RequestURI ≠ ['*'] →
      http.cleanPath req.URL.Path = req.URL.Path →
      (Handler.ServeHTTP relative { fs := .zipfs rcZip, aliasmap := [], debug := debug } req).2
        = .fileserver (.zipfs rcZip) req := by
  refine ⟨by simp [New, hopen], fun relative req hstar hclean => ?_⟩
  rw [ServeHTTP_canonical relative _ req hstar hclean]
  simp [Handler.handleFunc]

theorem archive_mode_no_alias_witness :
    (Handler.ServeHTTP (fun _ => true)
        { fs := .zipfs { files := ["index.html".toList] }, aliasmap := [], debug := false }
        { Method := "GET".toList, RequestURI := ['/'], URL := { Path := ['/'] } }).2
      = .fileserver (.zipfs { files := ["index.html".toList] })
          { Method := "GET".toList, RequestURI := ['/'], URL := { Path := ['/'] } } :=
  (archive_mode_no_alias zipEnv "a:b:c d".toList false { files := ["index.html".toList] }
    (by decide)).2 (fun _ => true)
    { Method := "GET".toList, RequestURI := ['/'], URL := { Path := ['/'] } }
    (by decide) (by decide)

/-- C9 fails on the code: for the pathspec `docs/` the only alias is the empty
string, and the handler answers the request `GET /` with a redirect (status 302)
whose `Location` is `/`, the URL of that same request. -/
theorem trailing_slash_root_redirects_to_itself :
    New srvEnv "docs/".toList false false
      = .ok { fs := .pickfs [([], "/srv/docs".toList)],
              aliasmap := [([], "/srv/docs".toList)], debug := false } ∧
    (∀ relative : Str → Bool,
      (Handler.ServeHTTP relative
          { fs := .pickfs [([], "/srv/docs".toList)],
            aliasmap := [([], "/srv/docs".toList)], debug := false }
          { Method := "GET".toList, RequestURI := "/".toList,
            URL := { Path := "/".toList } }).2
        = .redirect "/".toList 302) ∧
    url.URL.String { Path := "/".toList } = "/".toList :=
  ⟨by decide, fun relative => Redirect_root relative _ 302, by decide⟩

/-- The pathspec `.` has the one alias `.`; when `url.Parse` accepts the target
`/.` as a relative URL, `http.Redirect` cleans it, and the `Location` of the
redirect for `GET /` is `/` again. -/
theorem dot_alias_root_location (relative : Str → Bool)
    (hrel : relative "/.".toList = true) :
    New srvEnv ".".toList false false
      = .ok { fs := .pickfs [(".".toList, "/srv".toList)],
              aliasmap := [(".".toList, "/srv".toList)], debug := false } ∧
    (Handler.ServeHTTP relative
        { fs := .pickfs [(".".toList, "/srv".toList)],
          aliasmap := [(".".toList, "/srv".toList)], debug := false }
        { Method := "GET".toList, RequestURI := "/".toList,
          URL := { Path := "/".toList } }).2
      = .redirect "/".toList 302 := by
  refine ⟨by decide, ?_⟩
  show http.Redirect relative _ "/.".toList 302 = _
  unfold http.Redirect
  rw [hrel]
  decide

end Fileserver
